import Mathlib

set_option maxHeartbeats 1600000
set_option maxRecDepth 4096

/-!
# Verification of the corner heuristic table (`cornertable.c`)

A shallow embedding of the corner-table module of a Rubik's cube solver:
the perfect hash `corner_map` (a Lehmer-code mixed-radix encoding of the
corner permutation and orientations), the nibble-packed table updates
performed by `corner_generate`, and the flat-file persistence functions
`corner_write` / `corner_read`.

Cube states are modelled abstractly: the Cube module's `CUBIE(cubestr, i)`
macro exposes, for each position `i`, the pair (cubie identity, orientation);
`corner_map` reads only the seven corner positions 0, 2, 5, 7, 12, 14, 17.
-/

/-- A cube state: for each position `p` (the program uses 0..19), the pair
`(cubie identity, orientation)` exposed by the Cube module. -/
def CubeState : Type := Nat → Nat × Nat

/-- The Cube module's `CUBIE(cubestr, i)` accessor: the two-byte descriptor of
position `i`, as the pair (cubie identity, orientation). -/
def CUBIE (s : CubeState) (p : Nat) : Nat × Nat := s p

/-- The `corner_index` array: maps corner locations to indexes 0-7.  The C
designated initializer leaves every other entry zero. -/
def corner_index (p : Nat) : Nat :=
  if p = 0 then 0
  else if p = 2 then 1
  else if p = 5 then 2
  else if p = 7 then 3
  else if p = 12 then 4
  else if p = 14 then 5
  else if p = 17 then 6
  else if p = 19 then 7
  else 0

/-- `corner_value`: converts `position` to a number 0-7 via `corner_index`,
decrements the value of all slots after that one (the C loop runs
`i = position+1 .. 7`), and returns the slot's value.  The mutated
`corner_slot_value` array is returned as the second component. -/
def corner_value (position : Nat) (slot : Nat → Int) : Int × (Nat → Int) :=
  let p := corner_index position
  let slot2 : Nat → Int := fun i => if p + 1 ≤ i ∧ i ≤ 7 then slot i - 1 else slot i
  (slot2 p, slot2)

/-- `corner_map`: the mixed-radix perfect hash.  Seven sequential
`corner_value` calls (threading the mutated `corner_slot_value` array, which
starts as `{0,1,2,3,4,5,6,7}`) produce the permutation digits; the orientation
digits are read directly.  Coefficients are written as in the source. -/
def corner_map (s : CubeState) : Int :=
  let slot0 : Nat → Int := fun i => (i : Int)
  let r0 := corner_value (CUBIE s 0).1 slot0
  let r1 := corner_value (CUBIE s 2).1 r0.2
  let r2 := corner_value (CUBIE s 5).1 r1.2
  let r3 := corner_value (CUBIE s 7).1 r2.2
  let r4 := corner_value (CUBIE s 12).1 r3.2
  let r5 := corner_value (CUBIE s 14).1 r4.2
  let r6 := corner_value (CUBIE s 17).1 r5.2
  r0.1 * (3*3*3*3*3*3*3 * (2*3*4*5*6*7)) +
  r1.1 * (3*3*3*3*3*3*3 * (2*3*4*5*6)) +
  r2.1 * (3*3*3*3*3*3*3 * (2*3*4*5)) +
  r3.1 * (3*3*3*3*3*3*3 * (2*3*4)) +
  r4.1 * (3*3*3*3*3*3*3 * (2*3)) +
  r5.1 * (3*3*3*3*3*3*3 * 2) +
  r6.1 * (3*3*3*3*3*3*3) +
  ((CUBIE s 0).2 : Int) * (3*3*3*3*3*3) +
  ((CUBIE s 2).2 : Int) * (3*3*3*3*3) +
  ((CUBIE s 5).2 : Int) * (3*3*3*3) +
  ((CUBIE s 7).2 : Int) * (3*3*3) +
  ((CUBIE s 12).2 : Int) * (3*3) +
  ((CUBIE s 14).2 : Int) * 3 +
  ((CUBIE s 17).2 : Int)

/-- The `DEBUG_ASSERTS` branch of `corner_map`: if the computed index is
`>= 88179840` or `< 0` the C code reports the hash and dereferences a null
pointer (a crash), modelled here as `none`. -/
def corner_map_asserted (s : CubeState) : Option Int :=
  let index := corner_map s
  if 88179840 ≤ index ∨ index < 0 then none else some index

/-- The byte of the packed table holding the nibble of `hash`:
`(hash-1)/2` when `hash` is odd, `hash/2` when even (as in `corner_generate`). -/
def tByte (hash : Nat) : Nat :=
  if hash &&& 1 = 1 then (hash - 1) / 2 else hash / 2

/-- Reading a packed nibble, exactly as the guards in `corner_generate` read
it: high nibble (`>> 4`) of byte `(hash-1)/2` for odd `hash`, low nibble
(`& 15`) of byte `hash/2` for even `hash`. -/
def nibble_get (t : Nat → Nat) (hash : Nat) : Nat :=
  if hash &&& 1 = 1 then t ((hash - 1) / 2) >>> 4 else t (hash / 2) &&& 15

/-- The body of `corner_generate`'s `current.distance == depth` branch
(lines 211-227): if the nibble of `hash` is zero, OR the distance into it and
count the entry (`true`); otherwise the pop is a duplicate and the table is
untouched (`false`).  Bytes are `unsigned char`, hence the `% 256`. -/
def corner_generate_record_step (t : Nat → Nat) (hash dist : Nat) :
    (Nat → Nat) × Bool :=
  if hash &&& 1 = 1 then
    if t ((hash - 1) / 2) >>> 4 = 0 then
      (Function.update t ((hash - 1) / 2) ((t ((hash - 1) / 2) ||| (dist <<< 4)) % 256), true)
    else
      (t, false)
  else
    if t (hash / 2) &&& 15 = 0 then
      (Function.update t (hash / 2) ((t (hash / 2) ||| dist) % 256), true)
    else
      (t, false)

/-- The `instack` filter of `corner_generate` (lines 243-259): a neighbour is
skipped (`true`) when its `instack` nibble is `≤ dist + 1`; otherwise its
nibble is overwritten with `dist + 1` (`&= 15` / `&= 15<<4` then `|=`) and the
neighbour is pushed (`false`). -/
def corner_generate_filter_step (v : Nat → Nat) (hash dist : Nat) :
    (Nat → Nat) × Bool :=
  if (if hash &&& 1 = 1 then v ((hash - 1) / 2) >>> 4 ≤ dist + 1
      else v (hash / 2) &&& 15 ≤ dist + 1) then
    (v, true)
  else if hash &&& 1 = 1 then
    (Function.update v ((hash - 1) / 2)
      (((v ((hash - 1) / 2) &&& 15) ||| ((dist + 1) <<< 4)) % 256), false)
  else
    (Function.update v (hash / 2)
      (((v (hash / 2) &&& (15 <<< 4)) ||| (dist + 1)) % 256), false)

/-- Modelled from the spec: `fwrite(buf, 1, n, f)` (the C standard library, not
part of this repository) transfers `min n cap` bytes to a sink that accepts
`cap` more bytes, and returns the number transferred.  The first component is
the byte stream the sink received. -/
def fwrite_model (tbl : Nat → Nat) (n cap : Nat) : (Nat → Nat) × Nat :=
  (fun i => if i < min n cap then tbl i else 0, min n cap)

/-- `corner_write`: writes 44089920 bytes with a single `fwrite`; returns 0
when fewer were accepted, 1 otherwise. -/
def corner_write (tbl : Nat → Nat) (cap : Nat) : (Nat → Nat) × Nat :=
  let written := fwrite_model tbl 44089920 cap
  (written.1, if written.2 < 44089920 then 0 else 1)

/-- Modelled from the spec: `fread(buf, 1, n, f)` (the C standard library, not
part of this repository) fills the first `min n avail` bytes of the buffer
from a source holding `avail` more bytes, leaves the rest of the buffer
untouched, and returns the number read. -/
def fread_model (tbl : Nat → Nat) (n : Nat) (src : Nat → Nat) (avail : Nat) :
    (Nat → Nat) × Nat :=
  (fun i => if i < min n avail then src i else tbl i, min n avail)

/-- `corner_read`: reads 44089920 bytes with a single `fread` into the table;
returns 0 when fewer were supplied, 1 otherwise. -/
def corner_read (tbl : Nat → Nat) (src : Nat → Nat) (avail : Nat) :
    (Nat → Nat) × Nat :=
  let r := fread_model tbl 44089920 src avail
  (r.1, if r.2 < 44089920 then 0 else 1)

/-- The eight corner positions, in the order `corner_map` visits them. -/
def cornerPosList : List Nat := [0, 2, 5, 7, 12, 14, 17, 19]

/-- The corner position numbered `k` by `corner_index`. -/
def cornerPosOf (k : Nat) : Nat := cornerPosList.getD k 0

/-- The cubie identities sitting in the eight corner positions of `s`. -/
def cornerIds (s : CubeState) : List Nat :=
  cornerPosList.map fun p => (CUBIE s p).1

/-- The same identities renumbered to 0..7 through `corner_index`. -/
def cornerCodes (s : CubeState) : List Nat :=
  cornerPosList.map fun p => corner_index (CUBIE s p).1

/-- A state is corner-valid when its eight corner positions hold a permutation
of the eight corner identities and every corner orientation is in {0,1,2}. -/
def ValidCorners (s : CubeState) : Prop :=
  List.Perm (cornerIds s) cornerPosList ∧ ∀ p ∈ cornerPosList, (CUBIE s p).2 < 3

/-- The base-3 positional value of the seven orientation digits of `s`,
in the order `corner_map` reads them. -/
def orientVal (s : CubeState) : Nat :=
  (CUBIE s 0).2 * 729 + (CUBIE s 2).2 * 243 + (CUBIE s 5).2 * 81 +
  (CUBIE s 7).2 * 27 + (CUBIE s 12).2 * 9 + (CUBIE s 14).2 * 3 +
  (CUBIE s 17).2

/-- Builds a cube state whose `k`-th corner slot holds the cubie identity
`cornerPosOf (cs[k])` with orientation `os[k]`. -/
def mkCornerState (cs os : List Nat) : CubeState :=
  fun p => (cornerPosOf (cs.getD (corner_index p) 0), os.getD (corner_index p) 0)

/-- Modelled from the spec: the Lehmer digits of a sequence of renumbered
corner identities — maintain a slot sequence (initially `fun i => i`), emit
`slot c`, then decrement `slot j` for every `j > c`. -/
def specLehmerDigits : List Nat → (Nat → Int) → List Int
  | [], _ => []
  | c :: cs, slot =>
      slot c :: specLehmerDigits cs (fun j => if c < j then slot j - 1 else slot j)

/-- The sequence of digits produced by iterating `corner_value` over a list of
raw cubie identities, threading the slot array exactly as `corner_map` does. -/
def cvChain : List Nat → (Nat → Int) → List Int
  | [], _ => []
  | p :: ps, slot =>
      let r := corner_value p slot
      r.1 :: cvChain ps r.2

/-- Lehmer digits in "used-prefix" form: the digit of `c` is `c` minus the
number of already-used values below `c`. -/
def usedCountDigits : List Nat → List Nat → List Int
  | _, [] => []
  | used, c :: cs =>
      ((c : Int) - (used.countP fun u => decide (u < c) : Nat)) ::
        usedCountDigits (c :: used) cs

/-- Lehmer digits in "remaining-tail" form: the digit of `c` is the number of
later elements below `c`. -/
def tailCountDigits : List Nat → List Nat
  | [] => []
  | c :: cs => (cs.countP fun x => decide (x < c)) :: tailCountDigits cs

/-- The factorial-number-system rank of a sequence of distinct values: each
element contributes (number of later smaller elements) times the factorial of
the number of later elements. -/
def permRank : List Nat → Nat
  | [] => 0
  | c :: cs => (cs.countP fun x => decide (x < c)) * Nat.factorial cs.length + permRank cs

/-- Inverse of `permRank` over lists drawn from a sorted pool `avail`; the
first argument is the length of `avail`. -/
def permUnrankAux : Nat → List Nat → Nat → List Nat
  | 0, _, _ => []
  | n + 1, avail, r =>
      let c := avail.getD (r / Nat.factorial n) (avail.headD 0)
      c :: permUnrankAux n (avail.erase c) (r % Nat.factorial n)

/-- The seven base-3 digits of a value below 3^7, most significant first. -/
def base3Digits7 (v : Nat) : List Nat :=
  [v / 729 % 3, v / 243 % 3, v / 81 % 3, v / 27 % 3, v / 9 % 3, v / 3 % 3, v % 3]

/-- The base-3 positional value of a list of seven orientation digits. -/
def listOrientVal (os : List Nat) : Nat :=
  os.getD 0 0 * 729 + os.getD 1 0 * 243 + os.getD 2 0 * 81 + os.getD 3 0 * 27 +
  os.getD 4 0 * 9 + os.getD 5 0 * 3 + os.getD 6 0

/-- The solved reference state: slot `k` holds corner identity `cornerPosOf k`
with orientation 0. -/
def solvedState : CubeState := mkCornerState (List.range 8) (List.replicate 7 0)

/-- The table after writing nibbles 3, 7, 11, 15 at indices 0, 1, 2, 3 of an
all-zero packed table through the zero-nibble write path of
`corner_generate`. -/
def packDemo : Nat → Nat :=
  (corner_generate_record_step
    ((corner_generate_record_step
      ((corner_generate_record_step
        ((corner_generate_record_step (fun _ => 0) 0 3).1) 1 7).1) 2 11).1) 3 15).1

/-! ## Byte-level facts about nibble packing -/

theorem byte_or_hi_sets : ∀ x < 256, ∀ y < 16,
    x >>> 4 = 0 → ((x ||| (y <<< 4)) % 256) >>> 4 = y := by decide

theorem byte_or_lo_sets : ∀ x < 256, ∀ y < 16,
    x &&& 15 = 0 → ((x ||| y) % 256) &&& 15 = y := by decide

theorem byte_or_hi_keeps_lo : ∀ x < 256, ∀ y < 16,
    ((x ||| (y <<< 4)) % 256) &&& 15 = x &&& 15 := by decide

theorem byte_or_lo_keeps_hi : ∀ x < 256, ∀ y < 16,
    ((x ||| y) % 256) >>> 4 = x >>> 4 := by decide

theorem byte_set_hi : ∀ x < 256, ∀ y < 16,
    (((x &&& 15) ||| (y <<< 4)) % 256) >>> 4 = y := by decide

theorem byte_set_lo : ∀ x < 256, ∀ y < 16,
    (((x &&& (15 <<< 4)) ||| y) % 256) &&& 15 = y := by decide

/-! ## Branch equations for the `corner_generate` table updates -/

theorem nibble_get_odd (t : Nat → Nat) (h : Nat) (hp : h &&& 1 = 1) :
    nibble_get t h = t ((h - 1) / 2) >>> 4 := by
  unfold nibble_get; rw [if_pos hp]

theorem nibble_get_even (t : Nat → Nat) (h : Nat) (hp : ¬h &&& 1 = 1) :
    nibble_get t h = t (h / 2) &&& 15 := by
  unfold nibble_get; rw [if_neg hp]

theorem tByte_odd (h : Nat) (hp : h &&& 1 = 1) : tByte h = (h - 1) / 2 := by
  unfold tByte; rw [if_pos hp]

theorem tByte_even (h : Nat) (hp : ¬h &&& 1 = 1) : tByte h = h / 2 := by
  unfold tByte; rw [if_neg hp]

theorem record_step_odd_write (t : Nat → Nat) (h d : Nat) (hp : h &&& 1 = 1)
    (h0 : t ((h - 1) / 2) >>> 4 = 0) :
    corner_generate_record_step t h d =
      (Function.update t ((h - 1) / 2) ((t ((h - 1) / 2) ||| (d <<< 4)) % 256), true) := by
  unfold corner_generate_record_step; rw [if_pos hp, if_pos h0]

theorem record_step_odd_dup (t : Nat → Nat) (h d : Nat) (hp : h &&& 1 = 1)
    (h0 : ¬t ((h - 1) / 2) >>> 4 = 0) :
    corner_generate_record_step t h d = (t, false) := by
  unfold corner_generate_record_step; rw [if_pos hp, if_neg h0]

theorem record_step_even_write (t : Nat → Nat) (h d : Nat) (hp : ¬h &&& 1 = 1)
    (h0 : t (h / 2) &&& 15 = 0) :
    corner_generate_record_step t h d =
      (Function.update t (h / 2) ((t (h / 2) ||| d) % 256), true) := by
  unfold corner_generate_record_step; rw [if_neg hp, if_pos h0]

theorem record_step_even_dup (t : Nat → Nat) (h d : Nat) (hp : ¬h &&& 1 = 1)
    (h0 : ¬t (h / 2) &&& 15 = 0) :
    corner_generate_record_step t h d = (t, false) := by
  unfold corner_generate_record_step; rw [if_neg hp, if_neg h0]

theorem filter_step_skip (v : Nat → Nat) (h d : Nat)
    (hs : nibble_get v h ≤ d + 1) :
    corner_generate_filter_step v h d = (v, true) := by
  unfold corner_generate_filter_step
  by_cases hp : h &&& 1 = 1
  · rw [if_pos]
    rw [if_pos hp]
    rw [← nibble_get_odd v h hp]; exact hs
  · rw [if_pos]
    rw [if_neg hp]
    rw [← nibble_get_even v h hp]; exact hs

theorem filter_step_push_odd (v : Nat → Nat) (h d : Nat) (hp : h &&& 1 = 1)
    (hs : ¬v ((h - 1) / 2) >>> 4 ≤ d + 1) :
    corner_generate_filter_step v h d =
      (Function.update v ((h - 1) / 2)
        (((v ((h - 1) / 2) &&& 15) ||| ((d + 1) <<< 4)) % 256), false) := by
  unfold corner_generate_filter_step
  rw [if_neg, if_pos hp]
  rw [if_pos hp]; exact hs

theorem filter_step_push_even (v : Nat → Nat) (h d : Nat) (hp : ¬h &&& 1 = 1)
    (hs : ¬v (h / 2) &&& 15 ≤ d + 1) :
    corner_generate_filter_step v h d =
      (Function.update v (h / 2)
        (((v (h / 2) &&& (15 <<< 4)) ||| (d + 1)) % 256), false) := by
  unfold corner_generate_filter_step
  rw [if_neg, if_neg hp]
  rw [if_neg hp]; exact hs

/-! ## Claims about the table-update steps of `corner_generate` -/

/-- C3 counterexample: the recording branch of `corner_generate` has no
`h ≠ corner_map(solution)` guard.  The solved state hashes to 0 and its
iteration-0 write leaves the nibble at index 0 equal to 0; a frame popped at
target depth 2 that also hashes to 0 then records distance 2 there,
overwriting the solution's entry with a non-zero distance. -/
theorem corner_generate_record_solution_overwrite_counterexample :
    corner_map solvedState = 0 ∧
    nibble_get ((corner_generate_record_step (fun _ => 0) 0 0).1) 0 = 0 ∧
    (corner_generate_record_step ((corner_generate_record_step (fun _ => 0) 0 0).1) 0 2).2 = true ∧
    nibble_get ((corner_generate_record_step ((corner_generate_record_step (fun _ => 0) 0 0).1) 0 2).1) 0 = 2 := by
  refine ⟨by decide, by decide, by decide, by decide⟩

/-- C3 amended: a state popped at the target depth has its distance recorded
precisely when the table nibble at its hash is 0 — there is no
`h ≠ corner_map(solution)` check — and a recorded write stores exactly the
distance (so the iteration-0 write at `corner_map(solution)` stores 0, leaving
that nibble 0 until a later pop at target depth hashes there again). -/
theorem corner_generate_record_iff_nibble_zero :
    ∀ (t : Nat → Nat) (h d : Nat),
      ((corner_generate_record_step t h d).2 = true ↔ nibble_get t h = 0) ∧
      (nibble_get t h = 0 → t (tByte h) < 256 → d < 16 →
        nibble_get (corner_generate_record_step t h d).1 h = d) := by
  intro t h d
  by_cases hp : h &&& 1 = 1
  · by_cases h0 : t ((h - 1) / 2) >>> 4 = 0
    · rw [record_step_odd_write t h d hp h0, nibble_get_odd t h hp,
        nibble_get_odd _ h hp, tByte_odd h hp]
      refine ⟨by simp [h0], ?_⟩
      intro _ hb hd
      show Function.update t ((h - 1) / 2) ((t ((h - 1) / 2) ||| (d <<< 4)) % 256) ((h - 1) / 2) >>> 4 = d
      rw [Function.update_same]
      exact byte_or_hi_sets _ hb d hd h0
    · rw [record_step_odd_dup t h d hp h0, nibble_get_odd t h hp]
      exact ⟨by simp [h0], fun hz => absurd hz h0⟩
  · by_cases h0 : t (h / 2) &&& 15 = 0
    · rw [record_step_even_write t h d hp h0, nibble_get_even t h hp,
        nibble_get_even _ h hp, tByte_even h hp]
      refine ⟨by simp [h0], ?_⟩
      intro _ hb hd
      show Function.update t (h / 2) ((t (h / 2) ||| d) % 256) (h / 2) &&& 15 = d
      rw [Function.update_same]
      exact byte_or_lo_sets _ hb d hd h0
    · rw [record_step_even_dup t h d hp h0, nibble_get_even t h hp]
      exact ⟨by simp [h0], fun hz => absurd hz h0⟩

/-- Witness for the amended C3 theorem at a concrete input. -/
theorem corner_generate_record_iff_nibble_zero_witness :
    nibble_get (corner_generate_record_step (fun _ => 0) 1 3).1 1 = 3 :=
  (corner_generate_record_iff_nibble_zero (fun _ => 0) 1 3).2 (by decide) (by decide) (by decide)

/-- C4 counterexample: a neighbour whose visited-at-depth nibble is 0 is
nevertheless skipped by the filter (the code skips whenever the nibble is
`≤ dist + 1`, and `0 ≤ dist + 1` always holds), and its entry is not set. -/
theorem corner_generate_filter_skips_zero_counterexample :
    nibble_get (fun _ => 0) 4 = 0 ∧
    (corner_generate_filter_step (fun _ => 0) 4 0).2 = true ∧
    (corner_generate_filter_step (fun _ => 0) 4 0).1 2 = 0 := by
  refine ⟨by decide, by decide, by decide⟩

/-- C4 amended: the filter skips a neighbour precisely when its
visited-at-depth nibble is `≤ dist + 1` (so a nibble of 0 — the spec's
"not pushed" marker — is always skipped); a neighbour is pushed exactly when
its nibble exceeds `dist + 1`, and then its entry is set to `dist + 1` and no
other byte changes. -/
theorem corner_generate_filter_skip_iff :
    ∀ (v : Nat → Nat) (h d : Nat),
      ((corner_generate_filter_step v h d).2 = true ↔ nibble_get v h ≤ d + 1) ∧
      (d + 1 < nibble_get v h → v (tByte h) < 256 → d + 1 < 16 →
        ((corner_generate_filter_step v h d).2 = false ∧
         nibble_get (corner_generate_filter_step v h d).1 h = d + 1 ∧
         ∀ b, b ≠ tByte h → (corner_generate_filter_step v h d).1 b = v b)) := by
  intro v h d
  by_cases hs : nibble_get v h ≤ d + 1
  · rw [filter_step_skip v h d hs]
    exact ⟨by simp [hs], fun hgt => absurd hs (not_le.mpr hgt)⟩
  · by_cases hp : h &&& 1 = 1
    · rw [nibble_get_odd v h hp] at hs
      rw [filter_step_push_odd v h d hp hs, tByte_odd h hp]
      refine ⟨by simp [nibble_get_odd v h hp]; omega, ?_⟩
      intro _ hb hd
      refine ⟨rfl, ?_, ?_⟩
      · rw [nibble_get_odd _ h hp]
        show Function.update v ((h - 1) / 2) (((v ((h - 1) / 2) &&& 15) ||| ((d + 1) <<< 4)) % 256) ((h - 1) / 2) >>> 4 = d + 1
        rw [Function.update_same]
        exact byte_set_hi _ hb (d + 1) hd
      · intro b hbne
        exact Function.update_noteq hbne _ _
    · rw [nibble_get_even v h hp] at hs
      rw [filter_step_push_even v h d hp hs, tByte_even h hp]
      refine ⟨by simp [nibble_get_even v h hp]; omega, ?_⟩
      intro _ hb hd
      refine ⟨rfl, ?_, ?_⟩
      · rw [nibble_get_even _ h hp]
        show Function.update v (h / 2) (((v (h / 2) &&& (15 <<< 4)) ||| (d + 1)) % 256) (h / 2) &&& 15 = d + 1
        rw [Function.update_same]
        exact byte_set_lo _ hb (d + 1) hd
      · intro b hbne
        exact Function.update_noteq hbne _ _

/-- Witness for the amended C4 theorem at a concrete input. -/
theorem corner_generate_filter_skip_iff_witness :
    (corner_generate_filter_step (fun _ => 240) 1 0).2 = false ∧
    nibble_get (corner_generate_filter_step (fun _ => 240) 1 0).1 1 = 1 ∧
    (corner_generate_filter_step (fun _ => 240) 1 0).1 5 = 240 := by
  have h := (corner_generate_filter_skip_iff (fun _ => 240) 1 0).2
    (by decide) (by decide) (by decide)
  exact ⟨h.1, h.2.1, h.2.2 5 (by decide)⟩

/-- C5: at target depth, a pop whose nibble is already non-zero leaves the
whole table unchanged and does not increment the fill counter; a pop whose
nibble is zero records the distance, preserving the sibling nibble of the same
byte and every other byte. -/
theorem corner_generate_record_frame_effect :
    ∀ (t : Nat → Nat) (h d : Nat),
      (nibble_get t h ≠ 0 → corner_generate_record_step t h d = (t, false)) ∧
      (nibble_get t h = 0 → t (tByte h) < 256 → d < 16 →
        ((corner_generate_record_step t h d).2 = true ∧
         (∀ b, b ≠ tByte h → (corner_generate_record_step t h d).1 b = t b) ∧
         (if h &&& 1 = 1 then
            (corner_generate_record_step t h d).1 (tByte h) &&& 15 = t (tByte h) &&& 15
          else
            (corner_generate_record_step t h d).1 (tByte h) >>> 4 = t (tByte h) >>> 4))) := by
  intro t h d
  by_cases hp : h &&& 1 = 1
  · by_cases h0 : t ((h - 1) / 2) >>> 4 = 0
    · refine ⟨fun hnz => absurd (by rw [nibble_get_odd t h hp]; exact h0) hnz, ?_⟩
      intro _ hb hd
      rw [record_step_odd_write t h d hp h0, tByte_odd h hp] at *
      refine ⟨rfl, ?_, ?_⟩
      · intro b hbne
        exact Function.update_noteq hbne _ _
      · rw [if_pos hp]
        show Function.update t ((h - 1) / 2) ((t ((h - 1) / 2) ||| (d <<< 4)) % 256) ((h - 1) / 2) &&& 15 = t ((h - 1) / 2) &&& 15
        rw [Function.update_same]
        exact byte_or_hi_keeps_lo _ hb d hd
    · refine ⟨fun _ => record_step_odd_dup t h d hp h0, ?_⟩
      intro hz
      rw [nibble_get_odd t h hp] at hz
      exact absurd hz h0
  · by_cases h0 : t (h / 2) &&& 15 = 0
    · refine ⟨fun hnz => absurd (by rw [nibble_get_even t h hp]; exact h0) hnz, ?_⟩
      intro _ hb hd
      rw [record_step_even_write t h d hp h0, tByte_even h hp] at *
      refine ⟨rfl, ?_, ?_⟩
      · intro b hbne
        exact Function.update_noteq hbne _ _
      · rw [if_neg hp]
        show Function.update t (h / 2) ((t (h / 2) ||| d) % 256) (h / 2) >>> 4 = t (h / 2) >>> 4
        rw [Function.update_same]
        exact byte_or_lo_keeps_hi _ hb d hd
    · refine ⟨fun _ => record_step_even_dup t h d hp h0, ?_⟩
      intro hz
      rw [nibble_get_even t h hp] at hz
      exact absurd hz h0

/-- Witness for the C5 theorem at a concrete input. -/
theorem corner_generate_record_frame_effect_witness :
    (corner_generate_record_step (fun _ => 112) 6 5).2 = true ∧
    (corner_generate_record_step (fun _ => 112) 6 5).1 9 = 112 := by
  have h := (corner_generate_record_frame_effect (fun _ => 112) 6 5).2
    (by decide) (by decide) (by decide)
  exact ⟨h.1, h.2.1 9 (by decide)⟩

/-- C6 counterexample: after writing 3, 7, 11, 15 at indices 0, 1, 2, 3 of an
all-zero packed table, byte 1 holds 11 in its low nibble (index 2) and 15 in
its high nibble (index 3), i.e. 0xFB — not 0xF3 as claimed. -/
theorem nibble_pack_byte_one_counterexample :
    packDemo 1 = 0xFB ∧ (0xFB : Nat) ≠ 0xF3 := by
  refine ⟨by decide, by decide⟩

/-- C6 amended: writing 3, 7, 11, 15 at indices 0, 1, 2, 3 of an all-zero
packed table and reading them back yields 3, 7, 11, 15, and leaves byte 0
equal to 0x73 and byte 1 equal to 0xFB. -/
theorem nibble_pack_unpack_bytes :
    nibble_get packDemo 0 = 3 ∧ nibble_get packDemo 1 = 7 ∧
    nibble_get packDemo 2 = 11 ∧ nibble_get packDemo 3 = 15 ∧
    packDemo 0 = 0x73 ∧ packDemo 1 = 0xFB := by
  refine ⟨by decide, by decide, by decide, by decide, by decide, by decide⟩

/-! ## Claims about persistence -/

/-- C8: `corner_write` succeeds (returns 1) precisely when the sink accepts
all 44089920 bytes and fails (returns 0) precisely when it accepts fewer;
`corner_read` succeeds precisely when the source supplies all 44089920 bytes
and fails precisely when it supplies fewer. -/
theorem corner_write_read_return_codes :
    ∀ (tbl src : Nat → Nat) (cap avail : Nat),
      ((corner_write tbl cap).2 = 1 ↔ 44089920 ≤ cap) ∧
      ((corner_write tbl cap).2 = 0 ↔ cap < 44089920) ∧
      ((corner_read tbl src avail).2 = 1 ↔ 44089920 ≤ avail) ∧
      ((corner_read tbl src avail).2 = 0 ↔ avail < 44089920) := by
  intro tbl src cap avail
  have hw : (corner_write tbl cap).2 =
      if min 44089920 cap < 44089920 then 0 else 1 := rfl
  have hr : (corner_read tbl src avail).2 =
      if min 44089920 avail < 44089920 then 0 else 1 := rfl
  rw [hw, hr]
  refine ⟨?_, ?_, ?_, ?_⟩
  · by_cases h1 : min 44089920 cap < 44089920
    · rw [if_pos h1]; omega
    · rw [if_neg h1]; omega
  · by_cases h1 : min 44089920 cap < 44089920
    · rw [if_pos h1]; omega
    · rw [if_neg h1]; omega
  · by_cases h2 : min 44089920 avail < 44089920
    · rw [if_pos h2]; omega
    · rw [if_neg h2]; omega
  · by_cases h2 : min 44089920 avail < 44089920
    · rw [if_pos h2]; omega
    · rw [if_neg h2]; omega

/-- C9: writing a table to a sink that accepts everything and reading the
resulting byte stream back yields success for both operations and a
byte-for-byte identical table on the 44089920 persisted bytes. -/
theorem corner_write_read_round_trip :
    ∀ (tbl tbl2 : Nat → Nat) (cap avail i : Nat),
      44089920 ≤ cap → avail = 44089920 → i < 44089920 →
      (corner_write tbl cap).2 = 1 ∧
      (corner_read tbl2 (corner_write tbl cap).1 avail).2 = 1 ∧
      (corner_read tbl2 (corner_write tbl cap).1 avail).1 i = tbl i := by
  intro tbl tbl2 cap avail i hcap havail hi
  subst havail
  have hmc : min 44089920 cap = 44089920 := by omega
  have hw2 : (corner_write tbl cap).2 =
      if min 44089920 cap < 44089920 then 0 else 1 := rfl
  have hr2 : (corner_read tbl2 (corner_write tbl cap).1 44089920).2 =
      if min 44089920 44089920 < 44089920 then 0 else 1 := rfl
  refine ⟨?_, ?_, ?_⟩
  · rw [hw2, if_neg (by omega)]
  · rw [hr2, if_neg (by omega)]
  · have hv : (corner_read tbl2 (corner_write tbl cap).1 44089920).1 i =
        if i < min 44089920 44089920 then (corner_write tbl cap).1 i else tbl2 i := rfl
    have hv2 : (corner_write tbl cap).1 i =
        if i < min 44089920 cap then tbl i else 0 := rfl
    rw [hv, if_pos (by omega), hv2, if_pos (by omega)]

/-- Witness for the C9 theorem at a concrete input. -/
theorem corner_write_read_round_trip_witness :
    (corner_write (fun j => j % 256) 44089920).2 = 1 ∧
    (corner_read (fun _ => 7) (corner_write (fun j => j % 256) 44089920).1 44089920).2 = 1 ∧
    (corner_read (fun _ => 7) (corner_write (fun j => j % 256) 44089920).1 44089920).1 5 =
      (fun j => j % 256) 5 :=
  corner_write_read_round_trip (fun j => j % 256) (fun _ => 7) 44089920 44089920 5
    (by norm_num) rfl (by norm_num)

/-- C10: when the source supplies only `n < 44089920` bytes, `corner_read`
returns 0 but the first `n` bytes of the table have already been overwritten
with the supplied data, while bytes at positions `≥ n` keep their old
contents. -/
theorem corner_read_partial_overwrite :
    ∀ (tbl src : Nat → Nat) (n i j : Nat),
      n < 44089920 → i < n → n ≤ j →
      (corner_read tbl src n).2 = 0 ∧
      (corner_read tbl src n).1 i = src i ∧
      (corner_read tbl src n).1 j = tbl j := by
  intro tbl src n i j hn hi hj
  have h2 : (corner_read tbl src n).2 =
      if min 44089920 n < 44089920 then 0 else 1 := rfl
  have hvi : (corner_read tbl src n).1 i =
      if i < min 44089920 n then src i else tbl i := rfl
  have hvj : (corner_read tbl src n).1 j =
      if j < min 44089920 n then src j else tbl j := rfl
  refine ⟨?_, ?_, ?_⟩
  · rw [h2, if_pos (by omega)]
  · rw [hvi, if_pos (by omega)]
  · rw [hvj, if_neg (by omega)]

/-- Witness for the C10 theorem at a concrete input. -/
theorem corner_read_partial_overwrite_witness :
    (corner_read (fun _ => 1) (fun _ => 2) 10).2 = 0 ∧
    (corner_read (fun _ => 1) (fun _ => 2) 10).1 3 = (fun _ => 2 : Nat → Nat) 3 ∧
    (corner_read (fun _ => 1) (fun _ => 2) 10).1 10 = (fun _ => 1 : Nat → Nat) 10 :=
  corner_read_partial_overwrite (fun _ => 1) (fun _ => 2) 10 3 10
    (by norm_num) (by norm_num) (by norm_num)

/-! ## The Lehmer-code structure of `corner_map` -/

theorem corner_index_le (p : Nat) : corner_index p ≤ 7 := by
  unfold corner_index
  split_ifs <;> omega

theorem range8_countP_lt : ∀ c < 8,
    ((List.range 8).countP fun x => decide (x < c)) = c := by decide

/-- Iterating `corner_value` computes the used-prefix Lehmer digits: if the
slot array records, for each `q ≤ 7`, `q` minus the number of already-used
values below `q`, then each emitted digit continues that pattern. -/
theorem cvChain_eq_usedCount (ps : List Nat) :
    ∀ (used : List Nat) (slot : Nat → Int),
      (∀ q, q ≤ 7 → slot q = (q : Int) - (used.countP fun u => decide (u < q) : Nat)) →
      cvChain ps slot = usedCountDigits used (ps.map corner_index) := by
  induction ps with
  | nil => intro used slot _; rfl
  | cons p ps ih =>
    intro used slot hinv
    have hq : corner_index p ≤ 7 := corner_index_le p
    simp only [cvChain, corner_value, List.map_cons, usedCountDigits]
    congr 1
    · rw [if_neg (by omega)]
      exact hinv _ hq
    · apply ih
      intro r hr
      rw [List.countP_cons]
      by_cases hqr : corner_index p < r
      · rw [if_pos (by omega), hinv r hr]
        simp only [hqr, decide_True, if_true]
        push_cast
        ring
      · rw [if_neg (by omega), hinv r hr]
        simp only [hqr, decide_False, if_false]
        push_cast
        ring

/-- The spec's slot procedure (decrement every later slot, uncapped) computes
the same used-prefix Lehmer digits on renumbered identities `≤ 7`. -/
theorem specLehmer_eq_usedCount (cs : List Nat) :
    ∀ (used : List Nat) (slot : Nat → Int),
      (∀ q, q ≤ 7 → slot q = (q : Int) - (used.countP fun u => decide (u < q) : Nat)) →
      (∀ c ∈ cs, c ≤ 7) →
      specLehmerDigits cs slot = usedCountDigits used cs := by
  induction cs with
  | nil => intro used slot _ _; rfl
  | cons c cs ih =>
    intro used slot hinv hcs
    have hq : c ≤ 7 := hcs c (by simp)
    simp only [specLehmerDigits, usedCountDigits]
    congr 1
    · exact hinv _ hq
    · apply ih
      · intro r hr
        rw [List.countP_cons]
        by_cases hqr : c < r
        · rw [if_pos hqr, hinv r hr]
          simp only [hqr, decide_True, if_true]
          push_cast
          ring
        · rw [if_neg hqr, hinv r hr]
          simp only [hqr, decide_False, if_false]
          push_cast
          ring
      · intro x hx
        exact hcs x (by simp [hx])

/-- When `used ++ cs` is a permutation of `0..7`, the used-prefix digits agree
with the remaining-tail digits. -/
theorem usedCount_eq_tailCount (cs : List Nat) :
    ∀ used : List Nat, List.Perm (used ++ cs) (List.range 8) →
      usedCountDigits used cs = (tailCountDigits cs).map fun d => (d : Int) := by
  induction cs with
  | nil => intro used _; rfl
  | cons c cs ih =>
    intro used hperm
    have hc8 : c < 8 := by
      have hmem : c ∈ List.range 8 := hperm.mem_iff.mp (by simp)
      simpa using hmem
    have hcount : ((used ++ c :: cs).countP fun x => decide (x < c)) =
        ((List.range 8).countP fun x => decide (x < c)) :=
      hperm.countP_eq _
    rw [range8_countP_lt c hc8, List.countP_append, List.countP_cons] at hcount
    simp only [lt_irrefl, decide_False, if_false, Nat.add_zero] at hcount
    simp only [usedCountDigits, tailCountDigits, List.map_cons]
    congr 1
    · simp only [Bool.false_eq_true, if_false] at hcount ⊢
      omega
    · apply ih
      exact List.Perm.trans (List.perm_middle.symm) hperm

/-- `permRank` is bounded by the factorial of the length. -/
theorem permRank_lt (cs : List Nat) : permRank cs < Nat.factorial cs.length := by
  induction cs with
  | nil => simp [permRank, Nat.factorial]
  | cons c cs ih =>
    have h1 : (cs.countP fun x => decide (x < c)) ≤ cs.length := List.countP_le_length _
    have h2 : (cs.countP fun x => decide (x < c)) * Nat.factorial cs.length ≤
        cs.length * Nat.factorial cs.length :=
      Nat.mul_le_mul_right _ h1
    simp only [permRank, List.length_cons, Nat.factorial_succ]
    calc (cs.countP fun x => decide (x < c)) * Nat.factorial cs.length + permRank cs
        < (cs.countP fun x => decide (x < c)) * Nat.factorial cs.length +
          Nat.factorial cs.length := by omega
      _ ≤ cs.length * Nat.factorial cs.length + Nat.factorial cs.length := by omega
      _ = (cs.length + 1) * Nat.factorial cs.length := by ring

/-- `corner_map` expressed through `cvChain`: the seven sequential
`corner_value` calls are the seven entries of the chain. -/
theorem corner_map_cvChain (s : CubeState) :
    corner_map s =
      (cvChain [(CUBIE s 0).1, (CUBIE s 2).1, (CUBIE s 5).1, (CUBIE s 7).1,
        (CUBIE s 12).1, (CUBIE s 14).1, (CUBIE s 17).1] fun i => (i : Int)).getD 0 0 * 11022480 +
      (cvChain [(CUBIE s 0).1, (CUBIE s 2).1, (CUBIE s 5).1, (CUBIE s 7).1,
        (CUBIE s 12).1, (CUBIE s 14).1, (CUBIE s 17).1] fun i => (i : Int)).getD 1 0 * 1574640 +
      (cvChain [(CUBIE s 0).1, (CUBIE s 2).1, (CUBIE s 5).1, (CUBIE s 7).1,
        (CUBIE s 12).1, (CUBIE s 14).1, (CUBIE s 17).1] fun i => (i : Int)).getD 2 0 * 262440 +
      (cvChain [(CUBIE s 0).1, (CUBIE s 2).1, (CUBIE s 5).1, (CUBIE s 7).1,
        (CUBIE s 12).1, (CUBIE s 14).1, (CUBIE s 17).1] fun i => (i : Int)).getD 3 0 * 52488 +
      (cvChain [(CUBIE s 0).1, (CUBIE s 2).1, (CUBIE s 5).1, (CUBIE s 7).1,
        (CUBIE s 12).1, (CUBIE s 14).1, (CUBIE s 17).1] fun i => (i : Int)).getD 4 0 * 13122 +
      (cvChain [(CUBIE s 0).1, (CUBIE s 2).1, (CUBIE s 5).1, (CUBIE s 7).1,
        (CUBIE s 12).1, (CUBIE s 14).1, (CUBIE s 17).1] fun i => (i : Int)).getD 5 0 * 4374 +
      (cvChain [(CUBIE s 0).1, (CUBIE s 2).1, (CUBIE s 5).1, (CUBIE s 7).1,
        (CUBIE s 12).1, (CUBIE s 14).1, (CUBIE s 17).1] fun i => (i : Int)).getD 6 0 * 2187 +
      ((CUBIE s 0).2 : Int) * 729 + ((CUBIE s 2).2 : Int) * 243 +
      ((CUBIE s 5).2 : Int) * 81 + ((CUBIE s 7).2 : Int) * 27 +
      ((CUBIE s 12).2 : Int) * 9 + ((CUBIE s 14).2 : Int) * 3 +
      ((CUBIE s 17).2 : Int) := by
  rfl

/-- The renumbered corner identities of a valid state are a permutation of
`0..7`. -/
theorem cornerCodes_perm (s : CubeState) (hv : ValidCorners s) :
    List.Perm (cornerCodes s) (List.range 8) := by
  have h1 : cornerCodes s = (cornerIds s).map corner_index := by
    simp only [cornerCodes, cornerIds, List.map_map]
    rfl
  have h3 : cornerPosList.map corner_index = List.range 8 := by decide
  rw [h1, ← h3]
  exact hv.1.map corner_index

/-- The key identity: on a valid state, `corner_map` computes the factorial
rank of the renumbered corner permutation times 3^7 plus the base-3 value of
the seven orientations. -/
theorem corner_map_eq_rank (s : CubeState) (hv : ValidCorners s) :
    corner_map s = ((permRank (cornerCodes s) * 2187 + orientVal s : Nat) : Int) := by
  have hperm := cornerCodes_perm s hv
  have hA := cvChain_eq_usedCount
      [(CUBIE s 0).1, (CUBIE s 2).1, (CUBIE s 5).1, (CUBIE s 7).1, (CUBIE s 12).1,
       (CUBIE s 14).1, (CUBIE s 17).1] [] (fun i => (i : Int))
      (by intro q hq; simp [List.countP_nil])
  have hB := usedCount_eq_tailCount (cornerCodes s) [] (by simpa using hperm)
  simp only [cornerCodes, cornerPosList, List.map_cons, List.map_nil] at hB ⊢
  simp only [List.map_cons, List.map_nil] at hA
  simp only [usedCountDigits, tailCountDigits, List.map_cons, List.map_nil] at hA hB
  have h0 := congrArg (fun l => l.getD 0 0) hB
  have h1 := congrArg (fun l => l.getD 1 0) hB
  have h2 := congrArg (fun l => l.getD 2 0) hB
  have h3 := congrArg (fun l => l.getD 3 0) hB
  have h4 := congrArg (fun l => l.getD 4 0) hB
  have h5 := congrArg (fun l => l.getD 5 0) hB
  have h6 := congrArg (fun l => l.getD 6 0) hB
  simp only [List.getD_cons_zero, List.getD_cons_succ] at h0 h1 h2 h3 h4 h5 h6
  rw [corner_map_cvChain, hA]
  simp only [List.getD_cons_zero, List.getD_cons_succ]
  rw [h0, h1, h2, h3, h4, h5, h6]
  simp only [permRank, orientVal, List.length_cons, List.length_nil]
  norm_num [Nat.factorial]
  ring

/-- C7: on every corner-valid state the hash lies in `[0, 88179840)`, the
debug-assertion branch (which would crash) is not taken, and `corner_map`
returns normally. -/
theorem corner_map_range_safe :
    ∀ s : CubeState, ValidCorners s →
      (0 ≤ corner_map s ∧ corner_map s < 88179840) ∧
      corner_map_asserted s = some (corner_map s) := by
  intro s hv
  have heq := corner_map_eq_rank s hv
  have hlen : (cornerCodes s).length = 8 := by
    simp [cornerCodes, cornerPosList]
  have hrank : permRank (cornerCodes s) < 40320 := by
    have h := permRank_lt (cornerCodes s)
    rw [hlen] at h
    simpa [Nat.factorial] using h
  have ho0 := hv.2 0 (by decide)
  have ho2 := hv.2 2 (by decide)
  have ho5 := hv.2 5 (by decide)
  have ho7 := hv.2 7 (by decide)
  have ho12 := hv.2 12 (by decide)
  have ho14 := hv.2 14 (by decide)
  have ho17 := hv.2 17 (by decide)
  have horient : orientVal s < 2187 := by
    unfold orientVal
    omega
  have hbound : permRank (cornerCodes s) * 2187 + orientVal s < 88179840 := by omega
  have hlow : (0 : Int) ≤ corner_map s := by rw [heq]; positivity
  have hhigh : corner_map s < 88179840 := by rw [heq]; exact_mod_cast hbound
  refine ⟨⟨hlow, hhigh⟩, ?_⟩
  have hnot : ¬(88179840 ≤ corner_map s ∨ corner_map s < 0) := by
    push_neg
    exact ⟨hhigh, hlow⟩
  unfold corner_map_asserted
  rw [if_neg hnot]

/-- Witness for the C7 theorem: the solved state is corner-valid and its hash
passes the assertion. -/
theorem corner_map_range_safe_witness :
    ValidCorners solvedState ∧
    (0 ≤ corner_map solvedState ∧ corner_map solvedState < 88179840) ∧
    corner_map_asserted solvedState = some (corner_map solvedState) := by
  have hids : cornerIds solvedState = cornerPosList := by decide
  have hval : ValidCorners solvedState :=
    ⟨by rw [hids], by decide⟩
  exact ⟨hval, corner_map_range_safe solvedState hval⟩

/-- C1: on every corner-valid state, `corner_map` equals the mixed-radix value
of the spec's slot-procedure Lehmer digits `d_k` (weights `(7-k)! * 3^7`) plus
the base-3 value of the seven orientation digits. -/
theorem corner_map_mixed_radix_formula :
    ∀ s : CubeState, ValidCorners s →
      corner_map s =
        (specLehmerDigits ((cornerCodes s).take 7) fun i => (i : Int)).getD 0 0 *
          (((Nat.factorial 7 * 3 ^ 7 : Nat)) : Int) +
        (specLehmerDigits ((cornerCodes s).take 7) fun i => (i : Int)).getD 1 0 *
          (((Nat.factorial 6 * 3 ^ 7 : Nat)) : Int) +
        (specLehmerDigits ((cornerCodes s).take 7) fun i => (i : Int)).getD 2 0 *
          (((Nat.factorial 5 * 3 ^ 7 : Nat)) : Int) +
        (specLehmerDigits ((cornerCodes s).take 7) fun i => (i : Int)).getD 3 0 *
          (((Nat.factorial 4 * 3 ^ 7 : Nat)) : Int) +
        (specLehmerDigits ((cornerCodes s).take 7) fun i => (i : Int)).getD 4 0 *
          (((Nat.factorial 3 * 3 ^ 7 : Nat)) : Int) +
        (specLehmerDigits ((cornerCodes s).take 7) fun i => (i : Int)).getD 5 0 *
          (((Nat.factorial 2 * 3 ^ 7 : Nat)) : Int) +
        (specLehmerDigits ((cornerCodes s).take 7) fun i => (i : Int)).getD 6 0 *
          (((Nat.factorial 1 * 3 ^ 7 : Nat)) : Int) +
        ((CUBIE s 0).2 : Int) * (((3 ^ 6 : Nat)) : Int) +
        ((CUBIE s 2).2 : Int) * (((3 ^ 5 : Nat)) : Int) +
        ((CUBIE s 5).2 : Int) * (((3 ^ 4 : Nat)) : Int) +
        ((CUBIE s 7).2 : Int) * (((3 ^ 3 : Nat)) : Int) +
        ((CUBIE s 12).2 : Int) * (((3 ^ 2 : Nat)) : Int) +
        ((CUBIE s 14).2 : Int) * (((3 ^ 1 : Nat)) : Int) +
        ((CUBIE s 17).2 : Int) := by
  intro s _hv
  have h7 : ∀ c ∈ (cornerCodes s).take 7, c ≤ 7 := by
    intro c hc
    have hc2 : c ∈ cornerCodes s := List.take_subset _ _ hc
    simp only [cornerCodes, List.mem_map] at hc2
    obtain ⟨p, _, rfl⟩ := hc2
    exact corner_index_le _
  have hspec := specLehmer_eq_usedCount ((cornerCodes s).take 7) [] (fun i => (i : Int))
      (by intro q hq; simp [List.countP_nil]) h7
  have hA := cvChain_eq_usedCount
      [(CUBIE s 0).1, (CUBIE s 2).1, (CUBIE s 5).1, (CUBIE s 7).1, (CUBIE s 12).1,
       (CUBIE s 14).1, (CUBIE s 17).1] [] (fun i => (i : Int))
      (by intro q hq; simp [List.countP_nil])
  have hlist : (cornerCodes s).take 7 =
      List.map corner_index
        [(CUBIE s 0).1, (CUBIE s 2).1, (CUBIE s 5).1, (CUBIE s 7).1, (CUBIE s 12).1,
         (CUBIE s 14).1, (CUBIE s 17).1] := by
    simp [cornerCodes, cornerPosList]
  rw [corner_map_cvChain, hA, hspec, hlist]
  norm_num [Nat.factorial]

/-- Witness for the C1 theorem at the solved state. -/
theorem corner_map_mixed_radix_formula_witness :
    ValidCorners solvedState ∧
    corner_map solvedState =
      (specLehmerDigits ((cornerCodes solvedState).take 7) fun i => (i : Int)).getD 0 0 *
          (((Nat.factorial 7 * 3 ^ 7 : Nat)) : Int) +
        (specLehmerDigits ((cornerCodes solvedState).take 7) fun i => (i : Int)).getD 1 0 *
          (((Nat.factorial 6 * 3 ^ 7 : Nat)) : Int) +
        (specLehmerDigits ((cornerCodes solvedState).take 7) fun i => (i : Int)).getD 2 0 *
          (((Nat.factorial 5 * 3 ^ 7 : Nat)) : Int) +
        (specLehmerDigits ((cornerCodes solvedState).take 7) fun i => (i : Int)).getD 3 0 *
          (((Nat.factorial 4 * 3 ^ 7 : Nat)) : Int) +
        (specLehmerDigits ((cornerCodes solvedState).take 7) fun i => (i : Int)).getD 4 0 *
          (((Nat.factorial 3 * 3 ^ 7 : Nat)) : Int) +
        (specLehmerDigits ((cornerCodes solvedState).take 7) fun i => (i : Int)).getD 5 0 *
          (((Nat.factorial 2 * 3 ^ 7 : Nat)) : Int) +
        (specLehmerDigits ((cornerCodes solvedState).take 7) fun i => (i : Int)).getD 6 0 *
          (((Nat.factorial 1 * 3 ^ 7 : Nat)) : Int) +
        ((CUBIE solvedState 0).2 : Int) * (((3 ^ 6 : Nat)) : Int) +
        ((CUBIE solvedState 2).2 : Int) * (((3 ^ 5 : Nat)) : Int) +
        ((CUBIE solvedState 5).2 : Int) * (((3 ^ 4 : Nat)) : Int) +
        ((CUBIE solvedState 7).2 : Int) * (((3 ^ 3 : Nat)) : Int) +
        ((CUBIE solvedState 12).2 : Int) * (((3 ^ 2 : Nat)) : Int) +
        ((CUBIE solvedState 14).2 : Int) * (((3 ^ 1 : Nat)) : Int) +
        ((CUBIE solvedState 17).2 : Int) := by
  have hids : cornerIds solvedState = cornerPosList := by decide
  have hval : ValidCorners solvedState :=
    ⟨by rw [hids], by decide⟩
  exact ⟨hval, corner_map_mixed_radix_formula solvedState hval⟩

/-! ## Bijectivity of the factorial rank -/

theorem headD_mem_of_ne_nil (l : List Nat) (d : Nat) (h : l ≠ []) : l.headD d ∈ l := by
  cases l with
  | nil => exact absurd rfl h
  | cons a t => simp [List.headD]

theorem getD_mem_of_default_mem (l : List Nat) (n d : Nat) (hd : d ∈ l) : l.getD n d ∈ l := by
  by_cases hn : n < l.length
  · rw [List.getD_eq_get l d hn]
    exact List.get_mem l n hn
  · rw [List.getD_eq_default l d (le_of_not_lt hn)]
    exact hd

/-- The decoded list is always a permutation of the (length-matching) pool. -/
theorem permUnrankAux_perm : ∀ (n : Nat) (avail : List Nat) (r : Nat),
    avail.length = n → List.Perm (permUnrankAux n avail r) avail := by
  intro n
  induction n with
  | zero =>
    intro avail r h
    rw [List.length_eq_zero] at h
    subst h
    exact List.Perm.refl _
  | succ n ih =>
    intro avail r h
    have hne : avail ≠ [] := by
      intro h2
      subst h2
      simp at h
    simp only [permUnrankAux]
    have hcmem : avail.getD (r / Nat.factorial n) (avail.headD 0) ∈ avail :=
      getD_mem_of_default_mem _ _ _ (headD_mem_of_ne_nil _ _ hne)
    have hlen : (avail.erase (avail.getD (r / Nat.factorial n) (avail.headD 0))).length = n := by
      rw [List.length_erase_of_mem hcmem, h]
      rfl
    have htail := ih _ (r % Nat.factorial n) hlen
    exact (htail.cons _).trans (List.perm_cons_erase hcmem).symm

/-- In a strictly sorted list, the element at index `d` has exactly `d`
elements of the list below it. -/
theorem sorted_countP_get : ∀ (avail : List Nat), List.Pairwise (· < ·) avail →
    ∀ (d : Nat) (hd : d < avail.length),
      (avail.countP fun x => decide (x < avail.get ⟨d, hd⟩)) = d := by
  intro avail
  induction avail with
  | nil =>
    intro _ d hd
    simp at hd
  | cons a rest ih =>
    intro hsort d hd
    match d with
    | 0 =>
      have h1 : (rest.countP fun x => decide (x < a)) = 0 := by
        rw [List.countP_eq_zero]
        intro x hx
        have hax := (List.pairwise_cons.mp hsort).1 x hx
        simp only [decide_eq_true_eq]
        omega
      show ((a :: rest).countP fun x => decide (x < a)) = 0
      rw [List.countP_cons, h1]
      simp
    | d + 1 =>
      have hd' : d < rest.length := by simpa using hd
      have hget : (a :: rest).get ⟨d + 1, hd⟩ = rest.get ⟨d, hd'⟩ := rfl
      rw [hget, List.countP_cons]
      have ha : a < rest.get ⟨d, hd'⟩ :=
        (List.pairwise_cons.mp hsort).1 _ (List.get_mem rest d hd')
      rw [ih (List.pairwise_cons.mp hsort).2 d hd']
      simp only [List.get_eq_getElem] at ha
      simp [ha]

/-- In a strictly sorted list, indexing at the count of smaller elements
recovers a member. -/
theorem sorted_getD_countP : ∀ (avail : List Nat), List.Pairwise (· < ·) avail →
    ∀ c ∈ avail, ∀ dflt : Nat,
      (avail.countP fun x => decide (x < c)) < avail.length ∧
      avail.getD (avail.countP fun x => decide (x < c)) dflt = c := by
  intro avail
  induction avail with
  | nil =>
    intro _ c hc
    simp at hc
  | cons a rest ih =>
    intro hsort c hc dflt
    rcases List.mem_cons.mp hc with rfl | hcr
    · have h1 : ((c :: rest).countP fun x => decide (x < c)) = 0 := by
        rw [List.countP_cons, List.countP_eq_zero.mpr ?_]
        · simp
        · intro x hx
          have hax := (List.pairwise_cons.mp hsort).1 x hx
          simp only [decide_eq_true_eq]
          omega
      rw [h1]
      exact ⟨by simp, by simp⟩
    · have hml := (List.pairwise_cons.mp hsort).1 c hcr
      obtain ⟨ihlt, iheq⟩ := ih (List.pairwise_cons.mp hsort).2 c hcr dflt
      have h1 : ((a :: rest).countP fun x => decide (x < c)) =
          (rest.countP fun x => decide (x < c)) + 1 := by
        rw [List.countP_cons]
        simp [hml]
      rw [h1]
      constructor
      · simpa using Nat.succ_lt_succ ihlt
      · simpa [List.getD_cons_succ] using iheq

/-- Erasing `c` does not change the number of elements below `c`. -/
theorem countP_erase_self (avail : List Nat) (c : Nat) (hc : c ∈ avail) :
    ((avail.erase c).countP fun x => decide (x < c)) =
      (avail.countP fun x => decide (x < c)) := by
  have hpe := List.perm_cons_erase hc
  have h2 := hpe.countP_eq (fun x => decide (x < c))
  rw [List.countP_cons] at h2
  simp only [lt_irrefl, decide_False, Bool.false_eq_true, if_false, Nat.add_zero] at h2
  omega

/-- Decoding then ranking is the identity below `n!`. -/
theorem permRank_permUnrankAux : ∀ (n : Nat) (avail : List Nat) (r : Nat),
    avail.length = n → List.Pairwise (· < ·) avail → r < Nat.factorial n →
    permRank (permUnrankAux n avail r) = r := by
  intro n
  induction n with
  | zero =>
    intro avail r _ _ hr
    have : r = 0 := by simpa [Nat.factorial] using hr
    subst this
    rfl
  | succ n ih =>
    intro avail r hlen hsort hr
    have hdlt : r / Nat.factorial n < avail.length := by
      rw [hlen]
      rw [Nat.div_lt_iff_lt_mul (Nat.factorial_pos n)]
      rw [Nat.factorial_succ] at hr
      omega
    have hc : avail.getD (r / Nat.factorial n) (avail.headD 0) =
        avail.get ⟨r / Nat.factorial n, hdlt⟩ :=
      List.getD_eq_get avail (avail.headD 0) hdlt
    have hcmem : avail.get ⟨r / Nat.factorial n, hdlt⟩ ∈ avail :=
      List.get_mem avail _ hdlt
    simp only [permUnrankAux, hc]
    have hlen2 : (avail.erase (avail.get ⟨r / Nat.factorial n, hdlt⟩)).length = n := by
      rw [List.length_erase_of_mem hcmem, hlen]
      rfl
    have htailperm := permUnrankAux_perm n _ (r % Nat.factorial n) hlen2
    have hsort2 : List.Pairwise (· < ·) (avail.erase (avail.get ⟨r / Nat.factorial n, hdlt⟩)) :=
      List.Pairwise.sublist (List.erase_sublist _ _) hsort
    have hrank_tail := ih _ (r % Nat.factorial n) hlen2 hsort2
      (Nat.mod_lt _ (Nat.factorial_pos n))
    simp only [permRank]
    have hcp1 := htailperm.countP_eq
      (fun x => decide (x < avail.get ⟨r / Nat.factorial n, hdlt⟩))
    have hcp2 := countP_erase_self avail _ hcmem
    have hcp3 := sorted_countP_get avail hsort _ hdlt
    have hlentail : (permUnrankAux n
        (avail.erase (avail.get ⟨r / Nat.factorial n, hdlt⟩))
        (r % Nat.factorial n)).length = n :=
      htailperm.length_eq.trans hlen2
    rw [hcp1, hcp2, hcp3, hrank_tail, hlentail]
    rw [mul_comm]
    exact Nat.div_add_mod r (Nat.factorial n)

/-- Ranking then decoding is the identity on permutations of a sorted pool. -/
theorem permUnrankAux_permRank : ∀ (n : Nat) (avail cs : List Nat),
    avail.length = n → List.Pairwise (· < ·) avail → List.Perm cs avail →
    permUnrankAux n avail (permRank cs) = cs := by
  intro n
  induction n with
  | zero =>
    intro avail cs hlen _ hperm
    rw [List.length_eq_zero] at hlen
    subst hlen
    rw [hperm.eq_nil]
    rfl
  | succ n ih =>
    intro avail cs hlen hsort hperm
    cases cs with
    | nil =>
      have h2 := hperm.length_eq
      rw [hlen] at h2
      simp at h2
    | cons c tail =>
      have hcmem : c ∈ avail := hperm.mem_iff.mp (by simp)
      have htailperm : List.Perm tail (avail.erase c) :=
        ((hperm.trans (List.perm_cons_erase hcmem)).cons_inv)
      have hlen2 : (avail.erase c).length = n := by
        rw [List.length_erase_of_mem hcmem, hlen]
        rfl
      have htl : tail.length = n := htailperm.length_eq.trans hlen2
      have hrb : permRank tail < Nat.factorial n := by
        have h3 := permRank_lt tail
        rwa [htl] at h3
      have hd0 : (tail.countP fun x => decide (x < c)) =
          (avail.countP fun x => decide (x < c)) := by
        rw [htailperm.countP_eq (fun x => decide (x < c))]
        exact countP_erase_self avail c hcmem
      have hdiv : ((tail.countP fun x => decide (x < c)) * Nat.factorial n + permRank tail) /
          Nat.factorial n = (tail.countP fun x => decide (x < c)) := by
        rw [mul_comm, Nat.mul_add_div (Nat.factorial_pos n), Nat.div_eq_of_lt hrb]
        omega
      have hmod : ((tail.countP fun x => decide (x < c)) * Nat.factorial n + permRank tail) %
          Nat.factorial n = permRank tail := by
        rw [mul_comm, Nat.mul_add_mod, Nat.mod_eq_of_lt hrb]
      simp only [permRank, permUnrankAux, htl, hdiv, hmod]
      have hgd := (sorted_getD_countP avail hsort c hcmem (avail.headD 0)).2
      rw [hd0, hgd]
      have hsort2 : List.Pairwise (· < ·) (avail.erase c) :=
        List.Pairwise.sublist (List.erase_sublist _ _) hsort
      rw [ih (avail.erase c) tail hlen2 hsort2 htailperm]

/-! ## Building states from a permutation and orientations -/

theorem exists_eight (cs : List Nat) (h : cs.length = 8) :
    ∃ a0 a1 a2 a3 a4 a5 a6 a7, cs = [a0, a1, a2, a3, a4, a5, a6, a7] := by
  rcases cs with _ | ⟨a0, cs⟩
  · simp only [List.length_nil] at h
    omega
  rcases cs with _ | ⟨a1, cs⟩
  · simp only [List.length_cons, List.length_nil] at h
    omega
  rcases cs with _ | ⟨a2, cs⟩
  · simp only [List.length_cons, List.length_nil] at h
    omega
  rcases cs with _ | ⟨a3, cs⟩
  · simp only [List.length_cons, List.length_nil] at h
    omega
  rcases cs with _ | ⟨a4, cs⟩
  · simp only [List.length_cons, List.length_nil] at h
    omega
  rcases cs with _ | ⟨a5, cs⟩
  · simp only [List.length_cons, List.length_nil] at h
    omega
  rcases cs with _ | ⟨a6, cs⟩
  · simp only [List.length_cons, List.length_nil] at h
    omega
  rcases cs with _ | ⟨a7, cs⟩
  · simp only [List.length_cons, List.length_nil] at h
    omega
  rcases cs with _ | ⟨a8, cs⟩
  · exact ⟨a0, a1, a2, a3, a4, a5, a6, a7, rfl⟩
  · simp only [List.length_cons, List.length_nil] at h
    omega

theorem exists_seven (os : List Nat) (h : os.length = 7) :
    ∃ a0 a1 a2 a3 a4 a5 a6, os = [a0, a1, a2, a3, a4, a5, a6] := by
  rcases os with _ | ⟨a0, os⟩
  · simp only [List.length_nil] at h
    omega
  rcases os with _ | ⟨a1, os⟩
  · simp only [List.length_cons, List.length_nil] at h
    omega
  rcases os with _ | ⟨a2, os⟩
  · simp only [List.length_cons, List.length_nil] at h
    omega
  rcases os with _ | ⟨a3, os⟩
  · simp only [List.length_cons, List.length_nil] at h
    omega
  rcases os with _ | ⟨a4, os⟩
  · simp only [List.length_cons, List.length_nil] at h
    omega
  rcases os with _ | ⟨a5, os⟩
  · simp only [List.length_cons, List.length_nil] at h
    omega
  rcases os with _ | ⟨a6, os⟩
  · simp only [List.length_cons, List.length_nil] at h
    omega
  rcases os with _ | ⟨a7, os⟩
  · exact ⟨a0, a1, a2, a3, a4, a5, a6, rfl⟩
  · simp only [List.length_cons, List.length_nil] at h
    omega

theorem ci_cpo : ∀ q < 8, corner_index (cornerPosOf q) = q := by decide

theorem mem_range8_lt (cs : List Nat) (h : List.Perm cs (List.range 8)) :
    ∀ x ∈ cs, x < 8 := by
  intro x hx
  have h2 : x ∈ List.range 8 := h.mem_iff.mp hx
  simpa using h2

/-- Reading back the renumbered identities of a built state recovers the
permutation list. -/
theorem cornerCodes_mkCornerState (cs os : List Nat)
    (hp : List.Perm cs (List.range 8)) :
    cornerCodes (mkCornerState cs os) = cs := by
  have hlen : cs.length = 8 := by simpa using hp.length_eq
  have hlt := mem_range8_lt cs hp
  obtain ⟨a0, a1, a2, a3, a4, a5, a6, a7, rfl⟩ := exists_eight cs hlen
  have h0 : a0 < 8 := hlt a0 (by simp)
  have h1 : a1 < 8 := hlt a1 (by simp)
  have h2 : a2 < 8 := hlt a2 (by simp)
  have h3 : a3 < 8 := hlt a3 (by simp)
  have h4 : a4 < 8 := hlt a4 (by simp)
  have h5 : a5 < 8 := hlt a5 (by simp)
  have h6 : a6 < 8 := hlt a6 (by simp)
  have h7 : a7 < 8 := hlt a7 (by simp)
  show [corner_index (cornerPosOf a0), corner_index (cornerPosOf a1),
        corner_index (cornerPosOf a2), corner_index (cornerPosOf a3),
        corner_index (cornerPosOf a4), corner_index (cornerPosOf a5),
        corner_index (cornerPosOf a6), corner_index (cornerPosOf a7)] =
      [a0, a1, a2, a3, a4, a5, a6, a7]
  rw [ci_cpo a0 h0, ci_cpo a1 h1, ci_cpo a2 h2, ci_cpo a3 h3, ci_cpo a4 h4,
    ci_cpo a5 h5, ci_cpo a6 h6, ci_cpo a7 h7]

/-- A state built from a permutation of `0..7` and orientations below 3 is
corner-valid. -/
theorem validCorners_mkCornerState (cs os : List Nat)
    (hp : List.Perm cs (List.range 8)) (hos : ∀ o ∈ os, o < 3) :
    ValidCorners (mkCornerState cs os) := by
  have hlen : cs.length = 8 := by simpa using hp.length_eq
  constructor
  · obtain ⟨a0, a1, a2, a3, a4, a5, a6, a7, rfl⟩ := exists_eight cs hlen
    have hids : cornerIds (mkCornerState [a0, a1, a2, a3, a4, a5, a6, a7] os) =
        List.map cornerPosOf [a0, a1, a2, a3, a4, a5, a6, a7] := rfl
    rw [hids]
    have hmr : List.map cornerPosOf (List.range 8) = cornerPosList := by decide
    rw [← hmr]
    exact hp.map cornerPosOf
  · intro p _
    have hgen : ∀ k, os.getD k 0 < 3 := by
      intro k
      by_cases hk : k < os.length
      · rw [List.getD_eq_get os 0 hk]
        exact hos _ (List.get_mem os k hk)
      · rw [List.getD_eq_default os 0 (le_of_not_lt hk)]
        omega
    exact hgen (corner_index p)

theorem orientVal_mkCornerState (cs os : List Nat) :
    orientVal (mkCornerState cs os) = listOrientVal os := rfl

/-! ## Base-3 orientation digits -/

theorem base3Digits7_lt (v : Nat) : ∀ o ∈ base3Digits7 v, o < 3 := by
  intro o ho
  simp only [base3Digits7, List.mem_cons, List.not_mem_nil, or_false] at ho
  rcases ho with rfl | rfl | rfl | rfl | rfl | rfl | rfl <;> omega

theorem listOrientVal_base3 (v : Nat) (hv : v < 2187) :
    listOrientVal (base3Digits7 v) = v := by
  simp only [listOrientVal, base3Digits7, List.getD_cons_zero, List.getD_cons_succ]
  omega

theorem listOrientVal_lt (os : List Nat) (h7 : os.length = 7)
    (hos : ∀ o ∈ os, o < 3) : listOrientVal os < 2187 := by
  obtain ⟨a0, a1, a2, a3, a4, a5, a6, rfl⟩ := exists_seven os h7
  have h0 : a0 < 3 := hos a0 (by simp)
  have h1 : a1 < 3 := hos a1 (by simp)
  have h2 : a2 < 3 := hos a2 (by simp)
  have h3 : a3 < 3 := hos a3 (by simp)
  have h4 : a4 < 3 := hos a4 (by simp)
  have h5 : a5 < 3 := hos a5 (by simp)
  have h6 : a6 < 3 := hos a6 (by simp)
  simp only [listOrientVal, List.getD_cons_zero, List.getD_cons_succ]
  omega

theorem listOrientVal_inj (os os2 : List Nat) (h7 : os.length = 7)
    (h72 : os2.length = 7) (hos : ∀ o ∈ os, o < 3) (hos2 : ∀ o ∈ os2, o < 3)
    (heq : listOrientVal os = listOrientVal os2) : os = os2 := by
  obtain ⟨a0, a1, a2, a3, a4, a5, a6, rfl⟩ := exists_seven os h7
  obtain ⟨b0, b1, b2, b3, b4, b5, b6, rfl⟩ := exists_seven os2 h72
  have ha0 : a0 < 3 := hos a0 (by simp)
  have ha1 : a1 < 3 := hos a1 (by simp)
  have ha2 : a2 < 3 := hos a2 (by simp)
  have ha3 : a3 < 3 := hos a3 (by simp)
  have ha4 : a4 < 3 := hos a4 (by simp)
  have ha5 : a5 < 3 := hos a5 (by simp)
  have ha6 : a6 < 3 := hos a6 (by simp)
  have hb0 : b0 < 3 := hos2 b0 (by simp)
  have hb1 : b1 < 3 := hos2 b1 (by simp)
  have hb2 : b2 < 3 := hos2 b2 (by simp)
  have hb3 : b3 < 3 := hos2 b3 (by simp)
  have hb4 : b4 < 3 := hos2 b4 (by simp)
  have hb5 : b5 < 3 := hos2 b5 (by simp)
  have hb6 : b6 < 3 := hos2 b6 (by simp)
  simp only [listOrientVal, List.getD_cons_zero, List.getD_cons_succ] at heq
  have hcomp : a0 = b0 ∧ a1 = b1 ∧ a2 = b2 ∧ a3 = b3 ∧ a4 = b4 ∧ a5 = b5 ∧ a6 = b6 := by
    omega
  obtain ⟨rfl, rfl, rfl, rfl, rfl, rfl, rfl⟩ := hcomp
  rfl

/-- C2: the encoding is a bijection — every index in `[0, 88179840)` is
reached by exactly one pair (permutation of the eight corner identities over
the eight corner slots, seven orientation digits below 3). -/
theorem corner_map_bijection :
    ∀ i : Nat, i < 88179840 →
      ∃! p : List Nat × List Nat,
        (List.Perm p.1 (List.range 8) ∧ p.2.length = 7 ∧ (∀ o ∈ p.2, o < 3)) ∧
        corner_map (mkCornerState p.1 p.2) = (i : Int) := by
  intro i hi
  have hfact : Nat.factorial 8 = 40320 := by norm_num [Nat.factorial]
  have hrlt : i / 2187 < 40320 := by omega
  have hperm : List.Perm (permUnrankAux 8 (List.range 8) (i / 2187)) (List.range 8) :=
    permUnrankAux_perm 8 _ _ (by simp)
  have hrank : permRank (permUnrankAux 8 (List.range 8) (i / 2187)) = i / 2187 :=
    permRank_permUnrankAux 8 _ _ (by simp) (List.pairwise_lt_range 8)
      (by rw [hfact]; exact hrlt)
  have hos3 : ∀ o ∈ base3Digits7 (i % 2187), o < 3 := base3Digits7_lt _
  have hval : corner_map
      (mkCornerState (permUnrankAux 8 (List.range 8) (i / 2187)) (base3Digits7 (i % 2187))) =
      (i : Int) := by
    rw [corner_map_eq_rank _ (validCorners_mkCornerState _ _ hperm hos3)]
    rw [cornerCodes_mkCornerState _ _ hperm, hrank,
      orientVal_mkCornerState, listOrientVal_base3 _ (by omega)]
    have hsum : i / 2187 * 2187 + i % 2187 = i := by omega
    rw [hsum]
  refine ⟨(permUnrankAux 8 (List.range 8) (i / 2187), base3Digits7 (i % 2187)),
    ⟨⟨hperm, rfl, hos3⟩, hval⟩, ?_⟩
  rintro ⟨cs2, os2⟩ ⟨⟨hperm2, hosl2, hos32⟩, hval2⟩
  rw [corner_map_eq_rank _ (validCorners_mkCornerState cs2 os2 hperm2 hos32),
    cornerCodes_mkCornerState cs2 os2 hperm2, orientVal_mkCornerState] at hval2
  have hnat : permRank cs2 * 2187 + listOrientVal os2 = i := by exact_mod_cast hval2
  have hol2 : listOrientVal os2 < 2187 := listOrientVal_lt os2 hosl2 hos32
  have hlen2 : cs2.length = 8 := by simpa using hperm2.length_eq
  have hrank2b : permRank cs2 < 40320 := by
    have h := permRank_lt cs2
    rwa [hlen2, hfact] at h
  have hdiv : permRank cs2 = i / 2187 := by omega
  have hmod : listOrientVal os2 = i % 2187 := by omega
  have hcs2 : permUnrankAux 8 (List.range 8) (permRank cs2) = cs2 :=
    permUnrankAux_permRank 8 _ _ (by simp) (List.pairwise_lt_range 8) hperm2
  have hcseq : cs2 = permUnrankAux 8 (List.range 8) (i / 2187) := by
    rw [← hcs2, hdiv]
  have hoseq : os2 = base3Digits7 (i % 2187) :=
    listOrientVal_inj os2 (base3Digits7 (i % 2187)) hosl2 rfl hos32 hos3
      (by rw [hmod, listOrientVal_base3 _ (by omega)])
  rw [hcseq, hoseq]

/-- Witness for the C2 theorem at index 0. -/
theorem corner_map_bijection_witness :
    ∃! p : List Nat × List Nat,
      (List.Perm p.1 (List.range 8) ∧ p.2.length = 7 ∧ (∀ o ∈ p.2, o < 3)) ∧
      corner_map (mkCornerState p.1 p.2) = ((0 : Nat) : Int) :=
  corner_map_bijection 0 (by norm_num)
